import Mathlib

/-!
Shallow embedding of the knowledge-resource-allocation game (src/main.py)
over exact rational arithmetic.  Agents are identified positionally (each
Python `Agent` object is a distinct dictionary key); Python dicts keyed by
agent objects become lists parallel to the agents list, and the
name-keyed history dicts become association lists with dict semantics.
The float constants 1.1 and 0.9 are embedded as the rationals 11/10 and
9/10 ("in exact arithmetic").
-/

/-- `Agent` from src/main.py: static parameters `name`, `capability`,
`resource_need`, `selfishness`, plus the mutable fields `payoff`,
`resources_allocated`, `strategy`. -/
structure Agent where
  name : String
  capability : ℚ
  resource_need : ℚ
  selfishness : ℚ
  payoff : ℚ
  resources_allocated : ℚ
  strategy : ℚ
deriving DecidableEq

/-- `Agent.__init__`: payoff and resources_allocated start at 0,
strategy starts at 1.0. -/
def Agent.init (name : String) (capability resource_need selfishness : ℚ) : Agent :=
  { name := name
    capability := capability
    resource_need := resource_need
    selfishness := selfishness
    payoff := 0
    resources_allocated := 0
    strategy := 1 }

/-- `Agent.bid(self, resource_pool)`:
`bid = self.resource_need * (1 + self.selfishness * self.strategy)`,
then `min(bid, resource_pool)`. -/
def Agent.bid (a : Agent) (resource_pool : ℚ) : ℚ :=
  min (a.resource_need * (1 + a.selfishness * a.strategy)) resource_pool

/-- `Agent.update_strategy(self, reward)`: multiply strategy by 1.1 if
`reward > 0`, else by 0.9.  Returns the updated agent (Python mutates in
place). -/
def Agent.update_strategy (a : Agent) (reward : ℚ) : Agent :=
  if reward > 0 then { a with strategy := a.strategy * (11 / 10) }
  else { a with strategy := a.strategy * (9 / 10) }

/-- `ResourcePool` from src/main.py. -/
structure ResourcePool where
  total_resources : ℚ
  remaining_resources : ℚ
deriving DecidableEq

/-- `ResourcePool.__init__(total_resources)`. -/
def ResourcePool.init (total_resources : ℚ) : ResourcePool :=
  { total_resources := total_resources, remaining_resources := total_resources }

/-- `ResourcePool.replenish()`: `remaining_resources = total_resources`. -/
def ResourcePool.replenish (p : ResourcePool) : ResourcePool :=
  { p with remaining_resources := p.total_resources }

/-- `ResourcePool.allocate(bids)`: the bid dict becomes a list parallel to
the agents.  Returns the allocation together with the mutated pool
(`remaining_resources -= sum(allocation.values())`). -/
def ResourcePool.allocate (p : ResourcePool) (bids : List ℚ) : List ℚ × ResourcePool :=
  let total_bids := bids.sum
  let allocation :=
    if total_bids ≤ p.remaining_resources then bids
    else bids.map (fun bid => bid / total_bids * p.remaining_resources)
  (allocation, { p with remaining_resources := p.remaining_resources - allocation.sum })

/-- `compute_shapley_value(contributions, total_contribution)`:
per-entry `contribution / total_contribution if total_contribution > 0 else 0`. -/
def compute_shapley_value (contributions : List ℚ) (total_contribution : ℚ) : List ℚ :=
  contributions.map
    (fun contribution => if total_contribution > 0 then contribution / total_contribution else 0)

/- ### Game loop (resource_allocation_game), one round decomposed in
source order into named stages. -/

/-- Round stage: `resource_pool.replenish()`. -/
def roundPool1 (pool : ResourcePool) : ResourcePool :=
  pool.replenish

/-- Round stage: `bids = {agent: agent.bid(resource_pool.remaining_resources) for agent in agents}`. -/
def roundBids (agents : List Agent) (pool : ResourcePool) : List ℚ :=
  agents.map (fun agent => agent.bid (roundPool1 pool).remaining_resources)

/-- Round stage: `allocation = resource_pool.allocate(bids)` (the returned map). -/
def roundAllocation (agents : List Agent) (pool : ResourcePool) : List ℚ :=
  ((roundPool1 pool).allocate (roundBids agents pool)).1

/-- Round stage: the pool after `allocate` has mutated it. -/
def roundPool2 (agents : List Agent) (pool : ResourcePool) : ResourcePool :=
  ((roundPool1 pool).allocate (roundBids agents pool)).2

/-- Round stage: `agent.resources_allocated += allocated` for every agent. -/
def agentsAfterAlloc (agents : List Agent) (pool : ResourcePool) : List Agent :=
  (agents.zip (roundAllocation agents pool)).map
    (fun pr => { pr.1 with resources_allocated := pr.1.resources_allocated + pr.2 })

/-- Round stage: `contributions[agent] = agent.capability * allocated`. -/
def roundContributions (agents : List Agent) (pool : ResourcePool) : List ℚ :=
  ((agentsAfterAlloc agents pool).zip (roundAllocation agents pool)).map
    (fun pr => pr.1.capability * pr.2)

/-- Round stage: `total_contribution = sum(contributions.values())`. -/
def roundTotalContribution (agents : List Agent) (pool : ResourcePool) : ℚ :=
  (roundContributions agents pool).sum

/-- Round stage: `shapley_values = compute_shapley_value(contributions, total_contribution)`. -/
def roundShapley (agents : List Agent) (pool : ResourcePool) : List ℚ :=
  compute_shapley_value (roundContributions agents pool) (roundTotalContribution agents pool)

/-- Round stage: `reward = shapley_value * resource_pool.total_resources` for every agent. -/
def roundRewards (agents : List Agent) (pool : ResourcePool) : List ℚ :=
  (roundShapley agents pool).map (fun s => s * (roundPool2 agents pool).total_resources)

/-- Round stage: `agent.payoff += reward; agent.update_strategy(reward)` for every agent. -/
def agentsAfterRewards (agents : List Agent) (pool : ResourcePool) : List Agent :=
  ((agentsAfterAlloc agents pool).zip (roundRewards agents pool)).map
    (fun pr => Agent.update_strategy { pr.1 with payoff := pr.1.payoff + pr.2 } pr.2)

/-- One round acting on the mutable (agents, pool) state. -/
def roundStep (s : List Agent × ResourcePool) : List Agent × ResourcePool :=
  (agentsAfterRewards s.1 s.2, roundPool2 s.1 s.2)

/- ### History dictionaries: `payoff_history` / `allocation_history` are
Python dicts from agent name to a list of per-round values.  They are
embedded as association lists with dict semantics (insertion order, a
repeated key updates the existing entry). -/

/-- A name-keyed dict of per-round value sequences. -/
abbrev HistDict := List (String × List ℚ)

/-- `{agent.name: [] for agent in agents}` — dict comprehension: a key
already present is not duplicated (its value is overwritten with the same
empty list). -/
def dictInit (agents : List Agent) : HistDict :=
  agents.foldl
    (fun d a => if d.any (fun p => p.1 == a.name) then d else d ++ [(a.name, [])]) []

/-- `d[k].append(x)`: append `x` to the entry whose key is `k`. -/
def dictAppend (d : HistDict) (k : String) (x : ℚ) : HistDict :=
  d.map (fun p => if p.1 == k then (p.1, p.2 ++ [x]) else p)

/-- The history-update part of the reward loop: for every agent in order,
`payoff_history[agent.name].append(agent.payoff)` (the freshly updated
payoff) and `allocation_history[agent.name].append(allocation[agent])`. -/
def updateHistories (agents2 : List Agent) (allocation : List ℚ) (ph ah : HistDict) :
    HistDict × HistDict :=
  (agents2.zip allocation).foldl
    (fun d pr => (dictAppend d.1 pr.1.name pr.1.payoff, dictAppend d.2 pr.1.name pr.2))
    (ph, ah)

/-- Full game state: agents, pool and the two history dicts. -/
def GState := List Agent × ResourcePool × HistDict × HistDict

/-- One round of `resource_allocation_game`, including the history appends. -/
def gameStep (s : GState) : GState :=
  let agents := s.1
  let pool := s.2.1
  let hs := updateHistories (agentsAfterRewards agents pool) (roundAllocation agents pool)
    s.2.2.1 s.2.2.2
  (agentsAfterRewards agents pool, roundPool2 agents pool, hs.1, hs.2)

/-- `resource_allocation_game(agents, resource_pool, rounds)`: run `rounds`
rounds and return `(payoff_history, allocation_history)`. -/
def resource_allocation_game (agents : List Agent) (pool : ResourcePool) (rounds : Nat) :
    HistDict × HistDict :=
  let s := gameStep^[rounds] (agents, pool, dictInit agents, dictInit agents)
  (s.2.2.1, s.2.2.2)

/- ### Helper lemmas -/

lemma sum_map_div_mul (l : List ℚ) (S R : ℚ) :
    (l.map (fun b => b / S * R)).sum = l.sum / S * R := by
  induction l with
  | nil => simp
  | cons x xs ih => simp [ih, add_div, add_mul]

lemma sum_map_div (l : List ℚ) (S : ℚ) :
    (l.map (fun b => b / S)).sum = l.sum / S := by
  induction l with
  | nil => simp
  | cons x xs ih => simp [ih, add_div]

/- ### Theorems for the claims -/

/-- C1: for a bid map with non-negative values and a pool with
non-negative remaining resources, `allocate` is piecewise: if the sum `S`
of bids is at most `remaining_resources` the returned allocation equals
the bids unchanged; otherwise every agent gets `bid / S * remaining` and
the allocation sums exactly to the remaining resources seen at entry. -/
theorem allocate_piecewise (p : ResourcePool) (bids : List ℚ)
    (hb : ∀ b ∈ bids, 0 ≤ b) (hr : 0 ≤ p.remaining_resources) :
    (bids.sum ≤ p.remaining_resources → (p.allocate bids).1 = bids) ∧
    (p.remaining_resources < bids.sum →
      (p.allocate bids).1 = bids.map (fun b => b / bids.sum * p.remaining_resources) ∧
      ((p.allocate bids).1).sum = p.remaining_resources) := by
  constructor
  · intro h
    simp [ResourcePool.allocate, if_pos h]
  · intro h
    have hnle : ¬ bids.sum ≤ p.remaining_resources := not_le.mpr h
    have hS : bids.sum ≠ 0 := by
      have : 0 < bids.sum := lt_of_le_of_lt hr h
      exact ne_of_gt this
    refine ⟨by simp [ResourcePool.allocate, if_neg hnle], ?_⟩
    simp [ResourcePool.allocate, if_neg hnle, sum_map_div_mul, div_self hS]

/-- C1 witness: concrete instances of both branches. -/
theorem allocate_piecewise_witness :
    ((ResourcePool.mk 10 10).allocate [1, 2]).1 = [1, 2] ∧
    ((ResourcePool.mk 10 4).allocate [2, 6]).1 = [2 / 8 * 4, 6 / 8 * 4] ∧
    (((ResourcePool.mk 10 4).allocate [2, 6]).1).sum = 4 := by
  have h1 := (allocate_piecewise (ResourcePool.mk 10 10) [1, 2]
    (by intro b hb; fin_cases hb <;> norm_num) (by norm_num)).1 (by norm_num)
  have h2 := (allocate_piecewise (ResourcePool.mk 10 4) [2, 6]
    (by intro b hb; fin_cases hb <;> norm_num) (by norm_num)).2 (by norm_num)
  refine ⟨h1, ?_, h2.2⟩
  rw [h2.1]
  norm_num

/-- C2: when every bid is zero and remaining resources are non-negative,
the sum of bids is `0 ≤ remaining`, so the no-division branch is taken,
and the allocation returned is the all-zero bid map. -/
theorem allocate_zero_bids (p : ResourcePool) (bids : List ℚ)
    (hb : ∀ b ∈ bids, b = 0) (hr : 0 ≤ p.remaining_resources) :
    bids.sum ≤ p.remaining_resources ∧
    (p.allocate bids).1 = bids ∧
    ∀ x ∈ (p.allocate bids).1, x = 0 := by
  have hsum : bids.sum = 0 := List.sum_eq_zero hb
  have hle : bids.sum ≤ p.remaining_resources := hsum ▸ hr
  refine ⟨hle, by simp [ResourcePool.allocate, if_pos hle], ?_⟩
  intro x hx
  have : (p.allocate bids).1 = bids := by simp [ResourcePool.allocate, if_pos hle]
  exact hb x (this ▸ hx)

/-- C2 witness. -/
theorem allocate_zero_bids_witness :
    [(0 : ℚ), 0].sum ≤ (ResourcePool.mk 10 10).remaining_resources ∧
    ((ResourcePool.mk 10 10).allocate [0, 0]).1 = [0, 0] ∧
    ∀ x ∈ ((ResourcePool.mk 10 10).allocate [0, 0]).1, x = 0 :=
  allocate_zero_bids (ResourcePool.mk 10 10) [0, 0]
    (by intro b hb; fin_cases hb <;> norm_num) (by norm_num)

/-- C3: `allocate` decrements the pool's remaining resources by exactly
the sum of the returned allocation, and after a replenish-then-allocate
sequence on a pool with positive total resources and non-negative bids,
`0 ≤ remaining_resources ≤ total_resources` holds. -/
theorem allocate_decrement_invariant (p : ResourcePool) (bids : List ℚ)
    (hb : ∀ b ∈ bids, 0 ≤ b) (ht : 0 < p.total_resources) :
    ((p.allocate bids).2.remaining_resources =
      p.remaining_resources - ((p.allocate bids).1).sum) ∧
    (0 ≤ (p.replenish.allocate bids).2.remaining_resources ∧
      (p.replenish.allocate bids).2.remaining_resources ≤
        (p.replenish.allocate bids).2.total_resources) := by
  refine ⟨rfl, ?_⟩
  have hrem : p.replenish.remaining_resources = p.total_resources := rfl
  have htot2 : (p.replenish.allocate bids).2.total_resources = p.total_resources := by
    simp [ResourcePool.allocate, ResourcePool.replenish]
  by_cases h : bids.sum ≤ p.replenish.remaining_resources
  · have halloc : (p.replenish.allocate bids).1 = bids := by
      simp [ResourcePool.allocate, if_pos h]
    have hdec : (p.replenish.allocate bids).2.remaining_resources =
        p.replenish.remaining_resources - ((p.replenish.allocate bids).1).sum := rfl
    rw [hdec, halloc, hrem, htot2]
    have hsnn : 0 ≤ bids.sum := List.sum_nonneg hb
    constructor
    · have := hrem ▸ h
      linarith
    · linarith
  · have hlt : p.replenish.remaining_resources < bids.sum := not_le.mp h
    have hsum : ((p.replenish.allocate bids).1).sum = p.replenish.remaining_resources :=
      ((allocate_piecewise p.replenish bids hb (hrem ▸ le_of_lt ht)).2 hlt).2
    have hdec : (p.replenish.allocate bids).2.remaining_resources =
        p.replenish.remaining_resources - ((p.replenish.allocate bids).1).sum := rfl
    rw [hdec, hsum, hrem, htot2]
    constructor
    · linarith
    · linarith

/-- C3 witness. -/
theorem allocate_decrement_invariant_witness :
    (((ResourcePool.mk 10 4).allocate [2, 6]).2.remaining_resources =
      (ResourcePool.mk 10 4).remaining_resources -
        (((ResourcePool.mk 10 4).allocate [2, 6]).1).sum) ∧
    (0 ≤ ((ResourcePool.mk 10 4).replenish.allocate [2, 6]).2.remaining_resources ∧
      ((ResourcePool.mk 10 4).replenish.allocate [2, 6]).2.remaining_resources ≤
        ((ResourcePool.mk 10 4).replenish.allocate [2, 6]).2.total_resources) :=
  allocate_decrement_invariant (ResourcePool.mk 10 4) [2, 6]
    (by intro b hb; fin_cases hb <;> norm_num) (by norm_num)

/-- C4: with non-negative contributions and `total_contribution` equal to
their sum, `compute_shapley_value` returns `c / total` per agent when the
total is positive and `0` otherwise; every share lies in `[0, 1]`, shares
sum to `1` when the total is positive, and are all zero when it is zero. -/
theorem compute_shapley_spec (contributions : List ℚ)
    (h : ∀ c ∈ contributions, 0 ≤ c) :
    (compute_shapley_value contributions contributions.sum =
      contributions.map
        (fun c => if 0 < contributions.sum then c / contributions.sum else 0)) ∧
    (∀ s ∈ compute_shapley_value contributions contributions.sum, 0 ≤ s ∧ s ≤ 1) ∧
    (0 < contributions.sum →
      (compute_shapley_value contributions contributions.sum).sum = 1) ∧
    (contributions.sum = 0 →
      ∀ s ∈ compute_shapley_value contributions contributions.sum, s = 0) := by
  refine ⟨rfl, ?_, ?_, ?_⟩
  · intro s hs
    simp only [compute_shapley_value, List.mem_map] at hs
    obtain ⟨c, hc, rfl⟩ := hs
    by_cases hT : 0 < contributions.sum
    · rw [if_pos hT]
      constructor
      · exact div_nonneg (h c hc) (le_of_lt hT)
      · rw [div_le_one hT]
        exact List.single_le_sum h c hc
    · rw [if_neg hT]
      norm_num
  · intro hT
    simp only [compute_shapley_value, if_pos hT]
    rw [sum_map_div]
    exact div_self (ne_of_gt hT)
  · intro hT s hs
    simp only [compute_shapley_value, List.mem_map] at hs
    obtain ⟨c, _, rfl⟩ := hs
    rw [hT]
    norm_num

/-- C4 witness. -/
theorem compute_shapley_spec_witness :
    (compute_shapley_value [1, 3] ([1, 3] : List ℚ).sum =
      [1, 3].map (fun c => if 0 < ([1, 3] : List ℚ).sum then c / ([1, 3] : List ℚ).sum else 0)) ∧
    (∀ s ∈ compute_shapley_value [1, 3] ([1, 3] : List ℚ).sum, 0 ≤ s ∧ s ≤ 1) ∧
    (0 < ([1, 3] : List ℚ).sum → (compute_shapley_value [1, 3] ([1, 3] : List ℚ).sum).sum = 1) ∧
    (([1, 3] : List ℚ).sum = 0 →
      ∀ s ∈ compute_shapley_value [1, 3] ([1, 3] : List ℚ).sum, s = 0) :=
  compute_shapley_spec [1, 3] (by intro c hc; fin_cases hc <;> norm_num)

/-- C5: `update_strategy` multiplies the strategy by 1.1 exactly when the
reward is strictly positive, and by 0.9 when the reward is ≤ 0 (reward 0
takes the decreasing branch); no other field changes. -/
theorem update_strategy_spec (a : Agent) (reward : ℚ) :
    (0 < reward →
      a.update_strategy reward = { a with strategy := a.strategy * (11 / 10) }) ∧
    (reward ≤ 0 →
      a.update_strategy reward = { a with strategy := a.strategy * (9 / 10) }) := by
  constructor
  · intro h
    simp [Agent.update_strategy, if_pos h]
  · intro h
    simp [Agent.update_strategy, if_neg (not_lt.mpr h)]

/-- C5 witness: a positive reward, and the zero reward taking the
decreasing branch. -/
theorem update_strategy_spec_witness :
    (Agent.init "a" 1 1 0).update_strategy 5 =
      { Agent.init "a" 1 1 0 with strategy := (Agent.init "a" 1 1 0).strategy * (11 / 10) } ∧
    (Agent.init "a" 1 1 0).update_strategy 0 =
      { Agent.init "a" 1 1 0 with strategy := (Agent.init "a" 1 1 0).strategy * (9 / 10) } :=
  ⟨(update_strategy_spec (Agent.init "a" 1 1 0) 5).1 (by norm_num),
   (update_strategy_spec (Agent.init "a" 1 1 0) 0).2 (by norm_num)⟩

/-- C6: for an agent with non-negative need, selfishness and strategy and
a non-negative remaining-resources argument, `bid` returns
`min(resource_need * (1 + selfishness * strategy), remaining)`, which is
non-negative and never exceeds the remaining-resources argument.  `bid`
is a pure function of the agent: it returns a value and changes no state. -/
theorem bid_spec (a : Agent) (remaining : ℚ)
    (hn : 0 ≤ a.resource_need) (hs : 0 ≤ a.selfishness) (hst : 0 ≤ a.strategy)
    (hr : 0 ≤ remaining) :
    a.bid remaining = min (a.resource_need * (1 + a.selfishness * a.strategy)) remaining ∧
    0 ≤ a.bid remaining ∧ a.bid remaining ≤ remaining := by
  refine ⟨rfl, ?_, min_le_right _ _⟩
  apply le_min _ hr
  have h1 : (0 : ℚ) ≤ 1 + a.selfishness * a.strategy := by positivity
  positivity

/-- C6 witness. -/
theorem bid_spec_witness :
    (Agent.init "a" 2 3 (1 / 2)).bid 7 =
      min ((Agent.init "a" 2 3 (1 / 2)).resource_need *
        (1 + (Agent.init "a" 2 3 (1 / 2)).selfishness * (Agent.init "a" 2 3 (1 / 2)).strategy)) 7 ∧
    0 ≤ (Agent.init "a" 2 3 (1 / 2)).bid 7 ∧ (Agent.init "a" 2 3 (1 / 2)).bid 7 ≤ 7 :=
  bid_spec (Agent.init "a" 2 3 (1 / 2)) 7 (by norm_num [Agent.init]) (by norm_num [Agent.init])
    (by norm_num [Agent.init]) (by norm_num)

lemma update_strategy_pos (a : Agent) (r : ℚ) (h : 0 < a.strategy) :
    0 < (a.update_strategy r).strategy := by
  unfold Agent.update_strategy
  split <;> simp <;> positivity

lemma foldl_update_strategy_pos (rewards : List ℚ) (a : Agent) (h : 0 < a.strategy) :
    0 < (rewards.foldl Agent.update_strategy a).strategy := by
  induction rewards generalizing a with
  | nil => exact h
  | cons r rs ih => exact ih _ (update_strategy_pos a r h)

/- ### Length and field-preservation lemmas for the game loop -/

lemma update_strategy_payoff (a : Agent) (r : ℚ) : (a.update_strategy r).payoff = a.payoff := by
  unfold Agent.update_strategy
  split <;> rfl

lemma update_strategy_name (a : Agent) (r : ℚ) : (a.update_strategy r).name = a.name := by
  unfold Agent.update_strategy
  split <;> rfl

lemma update_strategy_capability (a : Agent) (r : ℚ) :
    (a.update_strategy r).capability = a.capability := by
  unfold Agent.update_strategy
  split <;> rfl

lemma update_strategy_resource_need (a : Agent) (r : ℚ) :
    (a.update_strategy r).resource_need = a.resource_need := by
  unfold Agent.update_strategy
  split <;> rfl

lemma update_strategy_selfishness (a : Agent) (r : ℚ) :
    (a.update_strategy r).selfishness = a.selfishness := by
  unfold Agent.update_strategy
  split <;> rfl

lemma update_strategy_nonneg (a : Agent) (r : ℚ) (h : 0 ≤ a.strategy) :
    0 ≤ (a.update_strategy r).strategy := by
  unfold Agent.update_strategy
  split <;> simp <;> positivity

lemma allocate_fst_length (p : ResourcePool) (bids : List ℚ) :
    ((p.allocate bids).1).length = bids.length := by
  simp only [ResourcePool.allocate]
  split <;> simp

lemma roundBids_length (A : List Agent) (P : ResourcePool) :
    (roundBids A P).length = A.length := by
  simp [roundBids]

lemma roundAllocation_length (A : List Agent) (P : ResourcePool) :
    (roundAllocation A P).length = A.length := by
  rw [roundAllocation, allocate_fst_length, roundBids_length]

lemma agentsAfterAlloc_length (A : List Agent) (P : ResourcePool) :
    (agentsAfterAlloc A P).length = A.length := by
  simp [agentsAfterAlloc, roundAllocation_length]

lemma roundContributions_length (A : List Agent) (P : ResourcePool) :
    (roundContributions A P).length = A.length := by
  simp [roundContributions, agentsAfterAlloc_length, roundAllocation_length]

lemma roundShapley_length (A : List Agent) (P : ResourcePool) :
    (roundShapley A P).length = A.length := by
  simp [roundShapley, compute_shapley_value, roundContributions_length]

lemma roundRewards_length (A : List Agent) (P : ResourcePool) :
    (roundRewards A P).length = A.length := by
  simp [roundRewards, roundShapley_length]

lemma agentsAfterRewards_length (A : List Agent) (P : ResourcePool) :
    (agentsAfterRewards A P).length = A.length := by
  simp [agentsAfterRewards, agentsAfterAlloc_length, roundRewards_length]

lemma roundPool1_remaining (P : ResourcePool) :
    (roundPool1 P).remaining_resources = P.total_resources := rfl

lemma roundPool2_total (A : List Agent) (P : ResourcePool) :
    (roundPool2 A P).total_resources = P.total_resources := rfl

/- ### Sum lemmas -/

lemma sum_map_mul (l : List ℚ) (c : ℚ) :
    (l.map (fun x => x * c)).sum = l.sum * c := by
  induction l with
  | nil => simp
  | cons x xs ih => simp [ih, add_mul]

lemma zip_payoff_sum : ∀ (A : List Agent) (rw : List ℚ), rw.length = A.length →
    ((A.zip rw).map (fun pr => pr.1.payoff + pr.2)).sum =
      (A.map (·.payoff)).sum + rw.sum := by
  intro A
  induction A with
  | nil =>
    intro rw h
    rw [List.length_nil, List.length_eq_zero] at h
    simp [h]
  | cons a as ih =>
    intro rw h
    cases rw with
    | nil => simp at h
    | cons r rs =>
      simp only [List.zip_cons_cons, List.map_cons, List.sum_cons]
      rw [ih rs (by simpa using h)]
      ring

lemma zip_map_payoff : ∀ (A : List Agent) (al rw : List ℚ), A.length ≤ al.length →
    ((((A.zip al).map
        (fun pr => { pr.1 with resources_allocated := pr.1.resources_allocated + pr.2 })).zip
      rw).map (fun pr => pr.1.payoff + pr.2)) =
    (A.zip rw).map (fun pr => pr.1.payoff + pr.2) := by
  intro A
  induction A with
  | nil => intro al rw _; simp
  | cons a as ih =>
    intro al rw h
    cases al with
    | nil => simp at h
    | cons x xs =>
      cases rw with
      | nil => simp
      | cons r rs =>
        simp only [List.zip_cons_cons, List.map_cons]
        exact congrArg _ (ih xs rs (by simpa using h))

lemma agentsAfterRewards_payoffs (A : List Agent) (P : ResourcePool) :
    (agentsAfterRewards A P).map (·.payoff) =
      (A.zip (roundRewards A P)).map (fun pr => pr.1.payoff + pr.2) := by
  have h1 : (agentsAfterRewards A P).map (·.payoff) =
      ((agentsAfterAlloc A P).zip (roundRewards A P)).map (fun pr => pr.1.payoff + pr.2) := by
    simp only [agentsAfterRewards, List.map_map]
    congr 1
    funext pr
    simp [Function.comp, update_strategy_payoff]
  rw [h1]
  unfold agentsAfterAlloc
  exact zip_map_payoff A _ _ (le_of_eq (roundAllocation_length A P).symm)

lemma payoff_sum_after (A : List Agent) (P : ResourcePool) :
    ((agentsAfterRewards A P).map (·.payoff)).sum =
      (A.map (·.payoff)).sum + (roundRewards A P).sum := by
  rw [agentsAfterRewards_payoffs, zip_payoff_sum A _ (roundRewards_length A P)]

lemma roundRewards_sum_pos (A : List Agent) (P : ResourcePool)
    (hT : 0 < roundTotalContribution A P) :
    (roundRewards A P).sum = P.total_resources := by
  unfold roundRewards
  rw [sum_map_mul, roundPool2_total]
  have hsh : (roundShapley A P).sum = 1 := by
    unfold roundShapley compute_shapley_value
    simp only [if_pos hT]
    rw [sum_map_div]
    exact div_self (ne_of_gt hT)
  rw [hsh, one_mul]

lemma roundRewards_sum_zero (A : List Agent) (P : ResourcePool)
    (hT : roundTotalContribution A P = 0) :
    (roundRewards A P).sum = 0 := by
  unfold roundRewards roundShapley compute_shapley_value
  rw [hT]
  simp

/-- C10: in a round whose total contribution is strictly positive, the
rewards handed out sum to exactly `total_resources`, so the aggregate
payoff across agents increases by exactly `total_resources`; in a round
whose total contribution is zero, the aggregate payoff is unchanged. -/
theorem round_reward_conservation (agents : List Agent) (pool : ResourcePool) :
    (0 < roundTotalContribution agents pool →
      (roundRewards agents pool).sum = pool.total_resources ∧
      ((agentsAfterRewards agents pool).map (·.payoff)).sum =
        (agents.map (·.payoff)).sum + pool.total_resources) ∧
    (roundTotalContribution agents pool = 0 →
      ((agentsAfterRewards agents pool).map (·.payoff)).sum =
        (agents.map (·.payoff)).sum) := by
  constructor
  · intro hT
    have hs := roundRewards_sum_pos agents pool hT
    exact ⟨hs, by rw [payoff_sum_after, hs]⟩
  · intro hT
    rw [payoff_sum_after, roundRewards_sum_zero agents pool hT, add_zero]

/- ### Non-negativity chain through a round -/

/-- Invariant on an agent reachable in a game run: non-negative static
parameters, non-negative strategy and non-negative accumulated payoff. -/
def AgentOK (a : Agent) : Prop :=
  0 ≤ a.capability ∧ 0 ≤ a.resource_need ∧ 0 ≤ a.selfishness ∧ 0 ≤ a.strategy ∧ 0 ≤ a.payoff

lemma roundBids_nonneg (A : List Agent) (P : ResourcePool)
    (hA : ∀ a ∈ A, AgentOK a) (ht : 0 ≤ P.total_resources) :
    ∀ b ∈ roundBids A P, 0 ≤ b := by
  intro b hb
  simp only [roundBids, List.mem_map] at hb
  obtain ⟨a, ha, rfl⟩ := hb
  obtain ⟨-, hn, hs, hst, -⟩ := hA a ha
  exact (bid_spec a (roundPool1 P).remaining_resources hn hs hst
    (by rw [roundPool1_remaining]; exact ht)).2.1

lemma allocate_fst_nonneg (p : ResourcePool) (bids : List ℚ)
    (hb : ∀ b ∈ bids, 0 ≤ b) (hr : 0 ≤ p.remaining_resources) :
    ∀ x ∈ (p.allocate bids).1, 0 ≤ x := by
  intro x hx
  simp only [ResourcePool.allocate] at hx
  by_cases h : bids.sum ≤ p.remaining_resources
  · rw [if_pos h] at hx
    exact hb x hx
  · rw [if_neg h] at hx
    simp only [List.mem_map] at hx
    obtain ⟨b, hbm, rfl⟩ := hx
    have hS : 0 < bids.sum := lt_of_le_of_lt hr (not_le.mp h)
    exact mul_nonneg (div_nonneg (hb b hbm) (le_of_lt hS)) hr

lemma roundAllocation_nonneg (A : List Agent) (P : ResourcePool)
    (hA : ∀ a ∈ A, AgentOK a) (ht : 0 ≤ P.total_resources) :
    ∀ x ∈ roundAllocation A P, 0 ≤ x :=
  allocate_fst_nonneg _ _ (roundBids_nonneg A P hA ht) (by rw [roundPool1_remaining]; exact ht)

lemma agentsAfterAlloc_mem (A : List Agent) (P : ResourcePool) {a' : Agent}
    (h : a' ∈ agentsAfterAlloc A P) :
    ∃ a ∈ A, ∃ x ∈ roundAllocation A P,
      a' = { a with resources_allocated := a.resources_allocated + x } := by
  simp only [agentsAfterAlloc, List.mem_map] at h
  obtain ⟨⟨a, x⟩, hpr, rfl⟩ := h
  exact ⟨a, (List.of_mem_zip hpr).1, x, (List.of_mem_zip hpr).2, rfl⟩

lemma roundContributions_nonneg (A : List Agent) (P : ResourcePool)
    (hA : ∀ a ∈ A, AgentOK a) (ht : 0 ≤ P.total_resources) :
    ∀ c ∈ roundContributions A P, 0 ≤ c := by
  intro c hc
  simp only [roundContributions, List.mem_map] at hc
  obtain ⟨⟨a', x⟩, hpr, rfl⟩ := hc
  obtain ⟨a, ha, y, -, rfl⟩ := agentsAfterAlloc_mem A P (List.of_mem_zip hpr).1
  exact mul_nonneg (hA a ha).1 (roundAllocation_nonneg A P hA ht x (List.of_mem_zip hpr).2)

lemma roundShapley_nonneg (A : List Agent) (P : ResourcePool)
    (hA : ∀ a ∈ A, AgentOK a) (ht : 0 ≤ P.total_resources) :
    ∀ s ∈ roundShapley A P, 0 ≤ s := by
  intro s hs
  simp only [roundShapley, compute_shapley_value, List.mem_map] at hs
  obtain ⟨c, hc, rfl⟩ := hs
  by_cases hT : 0 < roundTotalContribution A P
  · rw [if_pos hT]
    exact div_nonneg (roundContributions_nonneg A P hA ht c hc) (le_of_lt hT)
  · rw [if_neg hT]

lemma roundRewards_nonneg (A : List Agent) (P : ResourcePool)
    (hA : ∀ a ∈ A, AgentOK a) (ht : 0 ≤ P.total_resources) :
    ∀ r ∈ roundRewards A P, 0 ≤ r := by
  intro r hr
  simp only [roundRewards, List.mem_map] at hr
  obtain ⟨s, hs, rfl⟩ := hr
  exact mul_nonneg (roundShapley_nonneg A P hA ht s hs) (by rw [roundPool2_total]; exact ht)

lemma agentsAfterRewards_mem (A : List Agent) (P : ResourcePool) {a'' : Agent}
    (h : a'' ∈ agentsAfterRewards A P) :
    ∃ a' ∈ agentsAfterAlloc A P, ∃ r ∈ roundRewards A P,
      a'' = Agent.update_strategy { a' with payoff := a'.payoff + r } r := by
  simp only [agentsAfterRewards, List.mem_map] at h
  obtain ⟨⟨a', r⟩, hpr, rfl⟩ := h
  exact ⟨a', (List.of_mem_zip hpr).1, r, (List.of_mem_zip hpr).2, rfl⟩

lemma agentsAfterRewards_OK (A : List Agent) (P : ResourcePool)
    (hA : ∀ a ∈ A, AgentOK a) (ht : 0 ≤ P.total_resources) :
    ∀ a'' ∈ agentsAfterRewards A P, AgentOK a'' := by
  intro a'' h
  obtain ⟨a', ha', r, hrw, rfl⟩ := agentsAfterRewards_mem A P h
  obtain ⟨a, ha, x, -, rfl⟩ := agentsAfterAlloc_mem A P ha'
  obtain ⟨h1, h2, h3, h4, h5⟩ := hA a ha
  have hr0 := roundRewards_nonneg A P hA ht r hrw
  refine ⟨?_, ?_, ?_, ?_, ?_⟩
  · rw [update_strategy_capability]; exact h1
  · rw [update_strategy_resource_need]; exact h2
  · rw [update_strategy_selfishness]; exact h3
  · exact update_strategy_nonneg _ r h4
  · rw [update_strategy_payoff]; exact add_nonneg h5 hr0

/- ### Iterated game state -/

/-- The full game state after `k` rounds of `resource_allocation_game`,
starting from the given agents and pool and freshly initialised
histories. -/
def gameStates (agents : List Agent) (pool : ResourcePool) (k : Nat) : GState :=
  gameStep^[k] (agents, pool, dictInit agents, dictInit agents)

lemma gameStates_succ (agents : List Agent) (pool : ResourcePool) (k : Nat) :
    gameStates agents pool (k + 1) = gameStep (gameStates agents pool k) :=
  Function.iterate_succ_apply' _ _ _

lemma gameStep_fst (s : GState) : (gameStep s).1 = agentsAfterRewards s.1 s.2.1 := rfl

lemma gameStep_pool (s : GState) : (gameStep s).2.1 = roundPool2 s.1 s.2.1 := rfl

lemma gameStates_OK (agents : List Agent) (pool : ResourcePool)
    (hA : ∀ a ∈ agents, AgentOK a) (ht : 0 < pool.total_resources) (k : Nat) :
    (∀ a ∈ (gameStates agents pool k).1, AgentOK a) ∧
      0 < (gameStates agents pool k).2.1.total_resources := by
  induction k with
  | zero => exact ⟨hA, ht⟩
  | succ n ih =>
    rw [gameStates_succ]
    refine ⟨?_, ?_⟩
    · rw [gameStep_fst]
      exact agentsAfterRewards_OK _ _ ih.1 (le_of_lt ih.2)
    · rw [gameStep_pool, roundPool2_total]
      exact ih.2

lemma payoff_le_of_map_eq : ∀ (A B : List Agent) (rw : List ℚ),
    B.map (·.payoff) = (A.zip rw).map (fun pr => pr.1.payoff + pr.2) →
    (∀ r ∈ rw, 0 ≤ r) → A.length ≤ rw.length →
    List.Forall₂ (fun a b => a.payoff ≤ b.payoff) A B := by
  intro A
  induction A with
  | nil =>
    intro B rw heq _ _
    simp only [List.zip_nil_left, List.map_nil, List.map_eq_nil_iff] at heq
    rw [heq]
    exact List.Forall₂.nil
  | cons a as ih =>
    intro B rw heq hrw hlen
    cases rw with
    | nil => simp at hlen
    | cons r rs =>
      cases B with
      | nil => simp at heq
      | cons b bs =>
        simp only [List.zip_cons_cons, List.map_cons, List.cons.injEq] at heq
        refine List.Forall₂.cons ?_ (ih bs rs heq.2 (fun x hx => hrw x (List.mem_cons_of_mem r hx)) (by simpa using hlen))
        have hr0 : 0 ≤ r := hrw r (List.mem_cons_self r rs)
        rw [heq.1]
        linarith

lemma payoff_mono (A : List Agent) (P : ResourcePool)
    (h : ∀ r ∈ roundRewards A P, 0 ≤ r) :
    List.Forall₂ (fun a b => a.payoff ≤ b.payoff) A (agentsAfterRewards A P) :=
  payoff_le_of_map_eq A _ _ (agentsAfterRewards_payoffs A P) h
    (le_of_eq (roundRewards_length A P).symm)

/-- C8: in a run over agents with non-negative capability, need and
selfishness (fresh agents: strategy 1, payoff 0) and a pool with positive
total resources, after any number of rounds every per-round reward is
non-negative, every accumulated payoff is non-negative, the next round's
payoffs are exactly the current payoffs plus that round's rewards, and
payoffs are pointwise non-decreasing from one round to the next. -/
theorem payoffs_monotone (agents : List Agent) (pool : ResourcePool)
    (hcap : ∀ a ∈ agents, 0 ≤ a.capability) (hneed : ∀ a ∈ agents, 0 ≤ a.resource_need)
    (hself : ∀ a ∈ agents, 0 ≤ a.selfishness) (hstr : ∀ a ∈ agents, a.strategy = 1)
    (hpay : ∀ a ∈ agents, a.payoff = 0) (ht : 0 < pool.total_resources) (k : Nat) :
    (∀ r ∈ roundRewards (gameStates agents pool k).1 (gameStates agents pool k).2.1, 0 ≤ r) ∧
    (∀ a ∈ (gameStates agents pool k).1, 0 ≤ a.payoff) ∧
    ((gameStates agents pool (k + 1)).1.map (·.payoff) =
      ((gameStates agents pool k).1.zip
        (roundRewards (gameStates agents pool k).1 (gameStates agents pool k).2.1)).map
        (fun pr => pr.1.payoff + pr.2)) ∧
    List.Forall₂ (fun a b => a.payoff ≤ b.payoff)
      (gameStates agents pool k).1 (gameStates agents pool (k + 1)).1 := by
  have hA : ∀ a ∈ agents, AgentOK a := fun a ha =>
    ⟨hcap a ha, hneed a ha, hself a ha, by rw [hstr a ha]; norm_num, le_of_eq (hpay a ha).symm⟩
  have hInv := gameStates_OK agents pool hA ht k
  have hrw := roundRewards_nonneg _ _ hInv.1 (le_of_lt hInv.2)
  refine ⟨hrw, fun a ha => (hInv.1 a ha).2.2.2.2, ?_, ?_⟩
  · rw [gameStates_succ, gameStep_fst]
    exact agentsAfterRewards_payoffs _ _
  · rw [gameStates_succ, gameStep_fst]
    exact payoff_mono _ _ hrw

/-- C8 witness: one fresh agent, pool of 10, after 0 rounds. -/
theorem payoffs_monotone_witness :
    (∀ r ∈ roundRewards (gameStates [Agent.init "A" 1 1 0] (ResourcePool.init 10) 0).1
        (gameStates [Agent.init "A" 1 1 0] (ResourcePool.init 10) 0).2.1, 0 ≤ r) ∧
    (∀ a ∈ (gameStates [Agent.init "A" 1 1 0] (ResourcePool.init 10) 0).1, 0 ≤ a.payoff) ∧
    ((gameStates [Agent.init "A" 1 1 0] (ResourcePool.init 10) 1).1.map (·.payoff) =
      ((gameStates [Agent.init "A" 1 1 0] (ResourcePool.init 10) 0).1.zip
        (roundRewards (gameStates [Agent.init "A" 1 1 0] (ResourcePool.init 10) 0).1
          (gameStates [Agent.init "A" 1 1 0] (ResourcePool.init 10) 0).2.1)).map
        (fun pr => pr.1.payoff + pr.2)) ∧
    List.Forall₂ (fun a b => a.payoff ≤ b.payoff)
      (gameStates [Agent.init "A" 1 1 0] (ResourcePool.init 10) 0).1
      (gameStates [Agent.init "A" 1 1 0] (ResourcePool.init 10) 1).1 :=
  payoffs_monotone [Agent.init "A" 1 1 0] (ResourcePool.init 10)
    (by intro a ha; rcases List.mem_singleton.mp ha with rfl; norm_num [Agent.init])
    (by intro a ha; rcases List.mem_singleton.mp ha with rfl; norm_num [Agent.init])
    (by intro a ha; rcases List.mem_singleton.mp ha with rfl; norm_num [Agent.init])
    (by intro a ha; rcases List.mem_singleton.mp ha with rfl; rfl)
    (by intro a ha; rcases List.mem_singleton.mp ha with rfl; rfl)
    (by norm_num [ResourcePool.init]) 0

/- ### History-dict lemmas -/

lemma zip_map_fst {α β γ : Type} (f : α → γ) :
    ∀ (l1 : List α) (l2 : List β), l1.length ≤ l2.length →
    (l1.zip l2).map (fun pr => f pr.1) = l1.map f := by
  intro l1
  induction l1 with
  | nil => intro l2 _; simp
  | cons a as ih =>
    intro l2 h
    cases l2 with
    | nil => simp at h
    | cons b bs =>
      simp only [List.zip_cons_cons, List.map_cons]
      exact congrArg _ (ih bs (by simpa using h))

lemma agentsAfterAlloc_names (A : List Agent) (P : ResourcePool) :
    (agentsAfterAlloc A P).map (·.name) = A.map (·.name) := by
  simp only [agentsAfterAlloc, List.map_map]
  exact zip_map_fst (fun a : Agent => a.name) A (roundAllocation A P)
    (le_of_eq (roundAllocation_length A P).symm)

lemma agentsAfterRewards_names (A : List Agent) (P : ResourcePool) :
    (agentsAfterRewards A P).map (·.name) = A.map (·.name) := by
  have h1 : (agentsAfterRewards A P).map (·.name) =
      ((agentsAfterAlloc A P).zip (roundRewards A P)).map (fun pr => pr.1.name) := by
    simp only [agentsAfterRewards, List.map_map]
    congr 1
    funext pr
    simp [Function.comp, update_strategy_name]
  rw [h1, zip_map_fst (fun a : Agent => a.name) _ _
    (by rw [agentsAfterAlloc_length, roundRewards_length])]
  exact agentsAfterAlloc_names A P

lemma gameStates_names (agents : List Agent) (pool : ResourcePool) (k : Nat) :
    (gameStates agents pool k).1.map (·.name) = agents.map (·.name) := by
  induction k with
  | zero => rfl
  | succ n ih => rw [gameStates_succ, gameStep_fst, agentsAfterRewards_names, ih]

lemma dictAppend_find_self (d : HistDict) (k : String) (x : ℚ) :
    (dictAppend d k x).find? (fun p => p.1 == k) =
      (d.find? (fun p => p.1 == k)).map (fun p => (p.1, p.2 ++ [x])) := by
  unfold dictAppend
  rw [List.find?_map]
  have hcomp : ((fun p : String × List ℚ => p.1 == k) ∘
      (fun p : String × List ℚ => if p.1 == k then (p.1, p.2 ++ [x]) else p)) =
      (fun p : String × List ℚ => p.1 == k) := by
    funext q
    by_cases h : q.1 = k <;> simp [h]
  rw [hcomp]
  cases hf : d.find? (fun p => p.1 == k) with
  | none => rfl
  | some q =>
    have hq : q.1 = k := by
      have := List.find?_some hf
      simpa using this
    simp [hq]

lemma dictAppend_find_ne (d : HistDict) (k k' : String) (x : ℚ) (h : k' ≠ k) :
    (dictAppend d k x).find? (fun p => p.1 == k') = d.find? (fun p => p.1 == k') := by
  unfold dictAppend
  rw [List.find?_map]
  have hcomp : ((fun p : String × List ℚ => p.1 == k') ∘
      (fun p : String × List ℚ => if p.1 == k then (p.1, p.2 ++ [x]) else p)) =
      (fun p : String × List ℚ => p.1 == k') := by
    funext q
    by_cases hq : q.1 = k <;> simp [hq]
  rw [hcomp]
  cases hf : d.find? (fun p => p.1 == k') with
  | none => rfl
  | some q =>
    have hq : q.1 = k' := by
      have := List.find?_some hf
      simpa using this
    have hne : ¬ q.1 = k := by
      rw [hq]
      exact h
    simp [hne]

/-- The per-round history update as a plain fold of `dictAppend` calls
over (key, value) pairs. -/
def appendAll (l : List (String × ℚ)) (d : HistDict) : HistDict :=
  l.foldl (fun d p => dictAppend d p.1 p.2) d

lemma appendAll_find_not_mem : ∀ (l : List (String × ℚ)) (d : HistDict) (k : String),
    (∀ p ∈ l, p.1 ≠ k) →
    (appendAll l d).find? (fun p => p.1 == k) = d.find? (fun p => p.1 == k) := by
  intro l
  induction l with
  | nil => intro d k _; rfl
  | cons q rest ih =>
    intro d k h
    have hstep : appendAll (q :: rest) d = appendAll rest (dictAppend d q.1 q.2) := rfl
    rw [hstep, ih _ k (fun p hp => h p (List.mem_cons_of_mem q hp)),
      dictAppend_find_ne d q.1 k q.2 (Ne.symm (h q (List.mem_cons_self q rest)))]

lemma appendAll_find_mem : ∀ (l : List (String × ℚ)) (d : HistDict) (k : String) (x : ℚ),
    (l.map Prod.fst).Nodup → (k, x) ∈ l →
    (appendAll l d).find? (fun p => p.1 == k) =
      (d.find? (fun p => p.1 == k)).map (fun p => (p.1, p.2 ++ [x])) := by
  intro l
  induction l with
  | nil => intro d k x _ hmem; simp at hmem
  | cons q rest ih =>
    intro d k x hnd hmem
    have hstep : appendAll (q :: rest) d = appendAll rest (dictAppend d q.1 q.2) := rfl
    rw [List.map_cons, List.nodup_cons] at hnd
    rcases List.mem_cons.mp hmem with heq | hmem'
    · subst heq
      have hnotin : ∀ p ∈ rest, p.1 ≠ k := by
        intro p hp hpk
        exact hnd.1 (List.mem_map.mpr ⟨p, hp, hpk⟩)
      rw [hstep, appendAll_find_not_mem rest _ k hnotin, dictAppend_find_self]
    · have hkq : q.1 ≠ k := by
        intro hqk
        exact hnd.1 (List.mem_map.mpr ⟨(k, x), hmem', hqk.symm⟩)
      rw [hstep, ih _ k x hnd.2 hmem', dictAppend_find_ne d q.1 k q.2 (Ne.symm hkq)]

lemma foldl_pair {α β δ : Type} (f : α → δ → α) (g : β → δ → β) :
    ∀ (l : List δ) (a : α) (b : β),
    l.foldl (fun pr x => (f pr.1 x, g pr.2 x)) (a, b) = (l.foldl f a, l.foldl g b) := by
  intro l
  induction l with
  | nil => intro a b; rfl
  | cons x xs ih => intro a b; simp only [List.foldl_cons]; exact ih _ _

lemma updateHistories_fst (A2 : List Agent) (al : List ℚ) (ph ah : HistDict) :
    (updateHistories A2 al ph ah).1 =
      appendAll ((A2.zip al).map (fun pr => (pr.1.name, pr.1.payoff))) ph := by
  unfold updateHistories appendAll
  rw [foldl_pair (fun d (pr : Agent × ℚ) => dictAppend d pr.1.name pr.1.payoff)
    (fun d (pr : Agent × ℚ) => dictAppend d pr.1.name pr.2), List.foldl_map]

lemma updateHistories_snd (A2 : List Agent) (al : List ℚ) (ph ah : HistDict) :
    (updateHistories A2 al ph ah).2 =
      appendAll ((A2.zip al).map (fun pr => (pr.1.name, pr.2))) ah := by
  unfold updateHistories appendAll
  rw [foldl_pair (fun d (pr : Agent × ℚ) => dictAppend d pr.1.name pr.1.payoff)
    (fun d (pr : Agent × ℚ) => dictAppend d pr.1.name pr.2), List.foldl_map]

lemma pairs_keys (F : Agent × ℚ → ℚ) (A2 : List Agent) (al : List ℚ)
    (h : A2.length ≤ al.length) :
    ((A2.zip al).map (fun pr => (pr.1.name, F pr))).map Prod.fst = A2.map (·.name) := by
  rw [List.map_map]
  exact zip_map_fst (fun a : Agent => a.name) A2 al h

lemma exists_of_mem_keys {l : List (String × ℚ)} {k : String}
    (h : k ∈ l.map Prod.fst) : ∃ x, (k, x) ∈ l := by
  obtain ⟨p, hp, rfl⟩ := List.mem_map.mp h
  exact ⟨p.2, hp⟩

lemma dictInit_fold : ∀ (agents : List Agent) (acc : HistDict),
    (agents.map (·.name)).Nodup → (∀ a ∈ agents, ∀ p ∈ acc, p.1 ≠ a.name) →
    agents.foldl
        (fun d a => if d.any (fun p => p.1 == a.name) then d else d ++ [(a.name, [])]) acc
      = acc ++ agents.map (fun a => (a.name, [])) := by
  intro agents
  induction agents with
  | nil => intro acc _ _; simp
  | cons a rest ih =>
    intro acc hnd hacc
    rw [List.map_cons, List.nodup_cons] at hnd
    have hany : acc.any (fun p => p.1 == a.name) = false := by
      rw [List.any_eq_false]
      intro p hp
      simpa using hacc a (List.mem_cons_self a rest) p hp
    have hacc' : ∀ b ∈ rest, ∀ p ∈ acc ++ [(a.name, ([] : List ℚ))], p.1 ≠ b.name := by
      intro b hb p hp
      rcases List.mem_append.mp hp with hp1 | hp2
      · exact hacc b (List.mem_cons_of_mem a hb) p hp1
      · have hpe : p = (a.name, ([] : List ℚ)) := by simpa using hp2
        rw [hpe]
        intro hab
        exact hnd.1 (List.mem_map.mpr ⟨b, hb, hab.symm⟩)
    simp only [List.foldl_cons, hany, Bool.false_eq_true, if_false]
    rw [ih (acc ++ [(a.name, [])]) hnd.2 hacc', List.append_assoc]
    rfl

lemma dictInit_eq (agents : List Agent) (hnd : (agents.map (·.name)).Nodup) :
    dictInit agents = agents.map (fun a => (a.name, ([] : List ℚ))) := by
  unfold dictInit
  simpa using dictInit_fold agents [] hnd (by simp)

lemma map_init_find : ∀ (agents : List Agent) (k : String), k ∈ agents.map (·.name) →
    (agents.map (fun a => (a.name, ([] : List ℚ)))).find? (fun p => p.1 == k) =
      some (k, []) := by
  intro agents
  induction agents with
  | nil => intro k hk; simp at hk
  | cons a rest ih =>
    intro k hk
    by_cases h : (a.name == k) = true
    · have : a.name = k := by simpa using h
      rw [List.map_cons, List.find?_cons_of_pos _ (by simpa using h)]
      rw [this]
    · rw [List.map_cons, List.find?_cons_of_neg _ (by simpa using h)]
      apply ih
      simp only [List.map_cons, List.mem_cons] at hk
      rcases hk with heq | hmem
      · exact absurd (by simp [heq] : (a.name == k) = true) h
      · exact hmem

lemma gameStep_hist_fst (s : GState) :
    (gameStep s).2.2.1 = (updateHistories (agentsAfterRewards s.1 s.2.1)
      (roundAllocation s.1 s.2.1) s.2.2.1 s.2.2.2).1 := rfl

lemma gameStep_hist_snd (s : GState) :
    (gameStep s).2.2.2 = (updateHistories (agentsAfterRewards s.1 s.2.1)
      (roundAllocation s.1 s.2.1) s.2.2.1 s.2.2.2).2 := rfl

lemma gameStep_hist_find (s : GState) (k : String)
    (hk : k ∈ s.1.map (·.name)) (hnd : (s.1.map (·.name)).Nodup) :
    (∃ x, ((gameStep s).2.2.1).find? (fun p => p.1 == k) =
        (s.2.2.1.find? (fun p => p.1 == k)).map (fun p => (p.1, p.2 ++ [x]))) ∧
    (∃ x, ((gameStep s).2.2.2).find? (fun p => p.1 == k) =
        (s.2.2.2.find? (fun p => p.1 == k)).map (fun p => (p.1, p.2 ++ [x]))) := by
  have hlen : (agentsAfterRewards s.1 s.2.1).length ≤ (roundAllocation s.1 s.2.1).length := by
    rw [agentsAfterRewards_length, roundAllocation_length]
  have hnames : (agentsAfterRewards s.1 s.2.1).map (·.name) = s.1.map (·.name) :=
    agentsAfterRewards_names s.1 s.2.1
  constructor
  · have hkeys := pairs_keys (fun pr => pr.1.payoff) (agentsAfterRewards s.1 s.2.1)
      (roundAllocation s.1 s.2.1) hlen
    obtain ⟨x, hx⟩ := exists_of_mem_keys (l :=
      ((agentsAfterRewards s.1 s.2.1).zip (roundAllocation s.1 s.2.1)).map
        (fun pr => (pr.1.name, pr.1.payoff)))
      (by rw [hkeys, hnames]; exact hk)
    refine ⟨x, ?_⟩
    rw [gameStep_hist_fst, updateHistories_fst]
    exact appendAll_find_mem _ _ k x (by rw [hkeys, hnames]; exact hnd) hx
  · have hkeys := pairs_keys (fun pr => pr.2) (agentsAfterRewards s.1 s.2.1)
      (roundAllocation s.1 s.2.1) hlen
    obtain ⟨x, hx⟩ := exists_of_mem_keys (l :=
      ((agentsAfterRewards s.1 s.2.1).zip (roundAllocation s.1 s.2.1)).map
        (fun pr => (pr.1.name, pr.2)))
      (by rw [hkeys, hnames]; exact hk)
    refine ⟨x, ?_⟩
    rw [gameStep_hist_snd, updateHistories_snd]
    exact appendAll_find_mem _ _ k x (by rw [hkeys, hnames]; exact hnd) hx

lemma hist_find_after (agents : List Agent) (pool : ResourcePool)
    (hnd : (agents.map (·.name)).Nodup) (a : Agent) (ha : a ∈ agents) : ∀ R : Nat,
    (∃ l : List ℚ, ((gameStates agents pool R).2.2.1).find? (fun p => p.1 == a.name) =
        some (a.name, l) ∧ l.length = R) ∧
    (∃ l : List ℚ, ((gameStates agents pool R).2.2.2).find? (fun p => p.1 == a.name) =
        some (a.name, l) ∧ l.length = R) := by
  intro R
  induction R with
  | zero =>
    have hfind : (dictInit agents).find? (fun p => p.1 == a.name) = some (a.name, []) := by
      rw [dictInit_eq agents hnd]
      exact map_init_find agents a.name (List.mem_map_of_mem (·.name) ha)
    exact ⟨⟨[], hfind, rfl⟩, ⟨[], hfind, rfl⟩⟩
  | succ n ih =>
    have hk : a.name ∈ (gameStates agents pool n).1.map (·.name) := by
      rw [gameStates_names]
      exact List.mem_map_of_mem (·.name) ha
    have hnd' : ((gameStates agents pool n).1.map (·.name)).Nodup := by
      rw [gameStates_names]
      exact hnd
    obtain ⟨⟨x, hx⟩, ⟨y, hy⟩⟩ := gameStep_hist_find (gameStates agents pool n) a.name hk hnd'
    obtain ⟨⟨l1, hl1, hlen1⟩, ⟨l2, hl2, hlen2⟩⟩ := ih
    rw [← gameStates_succ] at hx hy
    refine ⟨⟨l1 ++ [x], ?_, by simp [hlen1]⟩, ⟨l2 ++ [y], ?_, by simp [hlen2]⟩⟩
    · rw [hx, hl1]
      rfl
    · rw [hy, hl2]
      rfl

/-- C9: with distinct agent names, `resource_allocation_game` over `R`
rounds returns payoff and allocation histories in which every agent's
name is mapped to a sequence of exactly `R` values, each round appending
exactly one value at the end of each agent's sequence; with `R = 0` the
histories are the freshly initialised dicts, whose sequences are all
empty (no round is run, so neither `bid` nor `allocate` is evaluated). -/
theorem game_histories (agents : List Agent) (pool : ResourcePool) (R : Nat)
    (hnd : (agents.map (·.name)).Nodup) :
    (∀ a ∈ agents,
      (∃ l : List ℚ, (resource_allocation_game agents pool R).1.find?
          (fun p => p.1 == a.name) = some (a.name, l) ∧ l.length = R) ∧
      (∃ l : List ℚ, (resource_allocation_game agents pool R).2.find?
          (fun p => p.1 == a.name) = some (a.name, l) ∧ l.length = R)) ∧
    (∀ a ∈ agents, ∀ k : Nat,
      (∃ l : List ℚ, ∃ x : ℚ,
        ((gameStates agents pool k).2.2.1).find? (fun p => p.1 == a.name) =
          some (a.name, l) ∧
        ((gameStates agents pool (k + 1)).2.2.1).find? (fun p => p.1 == a.name) =
          some (a.name, l ++ [x])) ∧
      (∃ l : List ℚ, ∃ x : ℚ,
        ((gameStates agents pool k).2.2.2).find? (fun p => p.1 == a.name) =
          some (a.name, l) ∧
        ((gameStates agents pool (k + 1)).2.2.2).find? (fun p => p.1 == a.name) =
          some (a.name, l ++ [x]))) ∧
    resource_allocation_game agents pool 0 = (dictInit agents, dictInit agents) ∧
    (∀ p ∈ dictInit agents, p.2 = ([] : List ℚ)) := by
  refine ⟨?_, ?_, rfl, ?_⟩
  · intro a ha
    exact hist_find_after agents pool hnd a ha R
  · intro a ha k
    have hk : a.name ∈ (gameStates agents pool k).1.map (·.name) := by
      rw [gameStates_names]
      exact List.mem_map_of_mem (·.name) ha
    have hnd' : ((gameStates agents pool k).1.map (·.name)).Nodup := by
      rw [gameStates_names]
      exact hnd
    obtain ⟨⟨x, hx⟩, ⟨y, hy⟩⟩ := gameStep_hist_find (gameStates agents pool k) a.name hk hnd'
    obtain ⟨⟨l1, hl1, -⟩, ⟨l2, hl2, -⟩⟩ := hist_find_after agents pool hnd a ha k
    rw [← gameStates_succ] at hx hy
    refine ⟨⟨l1, x, hl1, ?_⟩, ⟨l2, y, hl2, ?_⟩⟩
    · rw [hx, hl1]
      rfl
    · rw [hy, hl2]
      rfl
  · intro p hp
    rw [dictInit_eq agents hnd] at hp
    obtain ⟨a, -, rfl⟩ := List.mem_map.mp hp
    rfl

/-- C9 witness: two distinctly named agents, two rounds. -/
theorem game_histories_witness :
    (∀ a ∈ [Agent.init "A" 1 1 0, Agent.init "B" 2 1 0],
      (∃ l : List ℚ, (resource_allocation_game [Agent.init "A" 1 1 0, Agent.init "B" 2 1 0]
          (ResourcePool.init 10) 2).1.find?
          (fun p => p.1 == a.name) = some (a.name, l) ∧ l.length = 2) ∧
      (∃ l : List ℚ, (resource_allocation_game [Agent.init "A" 1 1 0, Agent.init "B" 2 1 0]
          (ResourcePool.init 10) 2).2.find?
          (fun p => p.1 == a.name) = some (a.name, l) ∧ l.length = 2)) ∧
    (∀ a ∈ [Agent.init "A" 1 1 0, Agent.init "B" 2 1 0], ∀ k : Nat,
      (∃ l : List ℚ, ∃ x : ℚ,
        ((gameStates [Agent.init "A" 1 1 0, Agent.init "B" 2 1 0] (ResourcePool.init 10)
            k).2.2.1).find? (fun p => p.1 == a.name) = some (a.name, l) ∧
        ((gameStates [Agent.init "A" 1 1 0, Agent.init "B" 2 1 0] (ResourcePool.init 10)
            (k + 1)).2.2.1).find? (fun p => p.1 == a.name) = some (a.name, l ++ [x])) ∧
      (∃ l : List ℚ, ∃ x : ℚ,
        ((gameStates [Agent.init "A" 1 1 0, Agent.init "B" 2 1 0] (ResourcePool.init 10)
            k).2.2.2).find? (fun p => p.1 == a.name) = some (a.name, l) ∧
        ((gameStates [Agent.init "A" 1 1 0, Agent.init "B" 2 1 0] (ResourcePool.init 10)
            (k + 1)).2.2.2).find? (fun p => p.1 == a.name) = some (a.name, l ++ [x]))) ∧
    resource_allocation_game [Agent.init "A" 1 1 0, Agent.init "B" 2 1 0]
      (ResourcePool.init 10) 0 =
      (dictInit [Agent.init "A" 1 1 0, Agent.init "B" 2 1 0],
       dictInit [Agent.init "A" 1 1 0, Agent.init "B" 2 1 0]) ∧
    (∀ p ∈ dictInit [Agent.init "A" 1 1 0, Agent.init "B" 2 1 0], p.2 = ([] : List ℚ)) :=
  game_histories [Agent.init "A" 1 1 0, Agent.init "B" 2 1 0] (ResourcePool.init 10) 2
    (by simp [Agent.init])

/-- C10 witness: a positive-contribution round and a zero-contribution
round at concrete inputs. -/
theorem round_reward_conservation_witness :
    ((roundRewards [Agent.init "A" 1 1 0] (ResourcePool.init 10)).sum =
        (ResourcePool.init 10).total_resources ∧
      ((agentsAfterRewards [Agent.init "A" 1 1 0] (ResourcePool.init 10)).map (·.payoff)).sum =
        (([Agent.init "A" 1 1 0]).map (·.payoff)).sum + (ResourcePool.init 10).total_resources) ∧
    ((agentsAfterRewards [Agent.init "A" 1 0 0] (ResourcePool.init 10)).map (·.payoff)).sum =
      (([Agent.init "A" 1 0 0]).map (·.payoff)).sum :=
  ⟨(round_reward_conservation [Agent.init "A" 1 1 0] (ResourcePool.init 10)).1
    (by norm_num [roundTotalContribution, roundContributions, agentsAfterAlloc, roundAllocation,
      roundBids, roundPool1, ResourcePool.allocate, ResourcePool.replenish, ResourcePool.init,
      Agent.bid, Agent.init]),
   (round_reward_conservation [Agent.init "A" 1 0 0] (ResourcePool.init 10)).2
    (by norm_num [roundTotalContribution, roundContributions, agentsAfterAlloc, roundAllocation,
      roundBids, roundPool1, ResourcePool.allocate, ResourcePool.replenish, ResourcePool.init,
      Agent.bid, Agent.init])⟩

/-- C7: a freshly constructed agent has strategy 1.0, and after any
sequence of `update_strategy` calls — the only operation that touches the
strategy — the strategy is still strictly positive. -/
theorem strategy_stays_positive (name : String) (capability resource_need selfishness : ℚ)
    (rewards : List ℚ) :
    (Agent.init name capability resource_need selfishness).strategy = 1 ∧
    0 < (rewards.foldl Agent.update_strategy
      (Agent.init name capability resource_need selfishness)).strategy :=
  ⟨rfl, foldl_update_strategy_pos rewards _ (by norm_num [Agent.init])⟩
